import Mathlib

/-!
Verification of the multi-currency money module (src/lib.rs).

The Rust source defines a `Currency` enum, a `Money<T>` wrapper around a
vector of (currency, amount) pairs, and a `Bank<T>` holding a map from
ordered currency pairs to exchange rates.  We embed these shallowly:

* `Currency` becomes an inductive type with decidable equality;
* `Money α` holds a list of entries;
* the bank's `HashMap<(Currency, Currency), T>` becomes a function
  `Currency × Currency → Option α` (lookup semantics of the hash map),
  with insertion modelled as a pointwise update;
* `Bank::reduce` panics when a conversion is missing, which we model by
  returning `Option (Money α)`: `none` is the abnormal termination.

Rust's `T::default()` for numeric amount types is the zero value, so the
fold in `reduce` starts from `(0 : α)`.  The amount type stays abstract,
with exactly the operations the Rust bounds require
(`Copy + Add + Default + Mul + Div`); theorems add algebraic hypotheses
(for example `AddZeroClass`) only where the claim's arithmetic needs them.
-/

inductive Currency : Type where
  | Doller : Currency
  | Franc : Currency
deriving DecidableEq, Repr

/-- `Money<T>(Vec<(Currency, T)>)`: an ordered sequence of entries. -/
structure Money (α : Type) where
  entries : List (Currency × α)
deriving DecidableEq, Repr

/-- `Money::doller`: a single-entry Money tagged `Doller`. -/
def Money.doller {α : Type} (amount : α) : Money α :=
  ⟨[(Currency.Doller, amount)]⟩

/-- `Money::franc`: a single-entry Money tagged `Franc`. -/
def Money.franc {α : Type} (amount : α) : Money α :=
  ⟨[(Currency.Franc, amount)]⟩

/-- `Money::times`: multiply every entry's amount by the factor. -/
def Money.times {α : Type} [Mul α] (m : Money α) (t : α) : Money α :=
  ⟨m.entries.map (fun i => (i.1, i.2 * t))⟩

/-- `impl Add for Money`: append the right operand's entries after the left's. -/
instance {α : Type} : Add (Money α) :=
  ⟨fun lhs rhs => ⟨lhs.entries ++ rhs.entries⟩⟩

/-- `Bank<T>`: the rate table `HashMap<(Currency, Currency), T>`,
modelled by its lookup function. -/
structure Bank (α : Type) where
  rates : Currency × Currency → Option α

/-- `Bank::new`: empty rate table. -/
def Bank.new {α : Type} : Bank α :=
  ⟨fun _ => none⟩

/-- `Bank::exchange`: identity when the currencies agree, otherwise divide
by a rate stored under `(frm, tgt)`, otherwise multiply by a rate stored
under `(tgt, frm)`, otherwise no value. -/
def Bank.exchange {α : Type} [Mul α] [Div α] (b : Bank α) (amount : α)
    (frm tgt : Currency) : Option α :=
  if frm = tgt then
    some amount
  else
    match b.rates (frm, tgt) with
    | some rate => some (amount / rate)
    | none =>
      match b.rates (tgt, frm) with
      | some rate => some (amount * rate)
      | none => none

/-- The map step of `Bank::reduce`: exchange each entry into the target
currency, short-circuiting (the Rust closure panics) on the first entry
whose `exchange` yields no value. -/
def exchangeAll {α : Type} [Mul α] [Div α] (b : Bank α) (tgt : Currency) :
    List (Currency × α) → Option (List α)
  | [] => some []
  | (currency, amount) :: rest =>
    match b.exchange amount currency tgt with
    | none => none
    | some v =>
      match exchangeAll b tgt rest with
      | none => none
      | some vs => some (v :: vs)

/-- `Bank::reduce`: exchange every entry into `tgt`, fold the results with
`+` starting from `T::default()` (zero), and wrap the sum as a
single-entry Money; `none` models the panic on a missing rate. -/
def Bank.reduce {α : Type} [Zero α] [Add α] [Mul α] [Div α] (b : Bank α)
    (money : Money α) (tgt : Currency) : Option (Money α) :=
  match exchangeAll b tgt money.entries with
  | none => none
  | some vs => some ⟨[(tgt, vs.foldl (fun acc v => acc + v) 0)]⟩

/-- `Bank::add_rate`: insert the rate under the ordered key `(frm, tgt)`
only when neither direction of the pair is present; otherwise leave the
table untouched. -/
def Bank.add_rate {α : Type} (b : Bank α) (frm tgt : Currency) (rate : α) :
    Bank α :=
  if (b.rates (frm, tgt)).isNone && (b.rates (tgt, frm)).isNone then
    ⟨fun key => if key = (frm, tgt) then some rate else b.rates key⟩
  else
    b

/-- A bank reachable by a sequence of `add_rate` calls, each call given as
(source currency, target currency, rate). -/
def Bank.applyCalls {α : Type} (b : Bank α) :
    List (Currency × Currency × α) → Bank α
  | [] => b
  | (frm, tgt, rate) :: rest => (b.add_rate frm tgt rate).applyCalls rest

open Currency

/-! ## Helper lemmas -/

theorem Money.add_entries {α : Type} (m1 m2 : Money α) :
    (m1 + m2).entries = m1.entries ++ m2.entries := rfl

theorem foldl_add_eq_add_sum {α : Type} [AddMonoid α] :
    ∀ (l : List α) (c : α), l.foldl (fun acc v => acc + v) c = c + l.sum
  | [], c => by simp
  | a :: l, c => by
    rw [List.foldl_cons, foldl_add_eq_add_sum l (c + a), List.sum_cons, add_assoc]

theorem exchangeAll_isSome {α : Type} [Mul α] [Div α] (b : Bank α) (tgt : Currency) :
    ∀ l : List (Currency × α), (∀ e ∈ l, (b.exchange e.2 e.1 tgt).isSome) →
      (exchangeAll b tgt l).isSome := by
  intro l
  induction l with
  | nil => intro _; simp [exchangeAll]
  | cons f rest ih =>
    intro h
    obtain ⟨c, a⟩ := f
    have h1 : (b.exchange a c tgt).isSome := h (c, a) (List.mem_cons_self _ _)
    have h2 : (exchangeAll b tgt rest).isSome :=
      ih fun e he => h e (List.mem_cons_of_mem _ he)
    obtain ⟨v, hv⟩ := Option.isSome_iff_exists.mp h1
    obtain ⟨vs, hvs⟩ := Option.isSome_iff_exists.mp h2
    simp [exchangeAll, hv, hvs]

theorem exchangeAll_mem_isSome {α : Type} [Mul α] [Div α] (b : Bank α) (tgt : Currency) :
    ∀ (l : List (Currency × α)) (vs : List α), exchangeAll b tgt l = some vs →
      ∀ e ∈ l, (b.exchange e.2 e.1 tgt).isSome := by
  intro l
  induction l with
  | nil => intro vs _ e he; exact absurd he (List.not_mem_nil e)
  | cons f rest ih =>
    intro vs h e he
    obtain ⟨c, a⟩ := f
    simp only [exchangeAll] at h
    cases hx : b.exchange a c tgt with
    | none => rw [hx] at h; cases h
    | some v =>
      rw [hx] at h
      cases hr : exchangeAll b tgt rest with
      | none => rw [hr] at h; cases h
      | some vs2 =>
        rcases List.mem_cons.mp he with rfl | hrest
        · simpa using Option.isSome_iff_exists.mpr ⟨v, hx⟩
        · exact ih vs2 hr e hrest

theorem exchangeAll_eq_none_iff {α : Type} [Mul α] [Div α] (b : Bank α) (tgt : Currency)
    (l : List (Currency × α)) :
    exchangeAll b tgt l = none ↔ ∃ e ∈ l, b.exchange e.2 e.1 tgt = none := by
  constructor
  · intro h
    by_contra hc
    push_neg at hc
    have hall : ∀ e ∈ l, (b.exchange e.2 e.1 tgt).isSome := fun e he =>
      Option.ne_none_iff_isSome.mp (hc e he)
    have := exchangeAll_isSome b tgt l hall
    rw [h] at this
    simp at this
  · rintro ⟨e, he, hne⟩
    cases hx : exchangeAll b tgt l with
    | none => rfl
    | some vs =>
      have := exchangeAll_mem_isSome b tgt l vs hx e he
      rw [hne] at this
      simp at this

theorem exchangeAll_append {α : Type} [Mul α] [Div α] (b : Bank α) (tgt : Currency) :
    ∀ (l1 l2 : List (Currency × α)) (v1 v2 : List α),
      exchangeAll b tgt l1 = some v1 → exchangeAll b tgt l2 = some v2 →
      exchangeAll b tgt (l1 ++ l2) = some (v1 ++ v2) := by
  intro l1
  induction l1 with
  | nil =>
    intro l2 v1 v2 h1 h2
    simp only [exchangeAll] at h1
    injection h1 with h1
    subst h1
    simpa using h2
  | cons f rest ih =>
    intro l2 v1 v2 h1 h2
    obtain ⟨c, a⟩ := f
    simp only [exchangeAll] at h1
    cases hx : b.exchange a c tgt with
    | none => rw [hx] at h1; cases h1
    | some v =>
      rw [hx] at h1
      cases hr : exchangeAll b tgt rest with
      | none => rw [hr] at h1; cases h1
      | some vs =>
        rw [hr] at h1
        injection h1 with h1
        subst h1
        simp [List.cons_append, exchangeAll, hx, ih l2 vs v2 hr h2]

theorem exchangeAll_getElem {α : Type} [Mul α] [Div α] (b : Bank α) (tgt : Currency) :
    ∀ (l : List (Currency × α)) (vs : List α), exchangeAll b tgt l = some vs →
      ∀ i : Nat, vs[i]? = (l[i]?).bind fun e => b.exchange e.2 e.1 tgt := by
  intro l
  induction l with
  | nil =>
    intro vs h i
    simp only [exchangeAll] at h
    injection h with h
    subst h
    simp
  | cons f rest ih =>
    intro vs h i
    obtain ⟨c, a⟩ := f
    simp only [exchangeAll] at h
    cases hx : b.exchange a c tgt with
    | none => rw [hx] at h; cases h
    | some v =>
      rw [hx] at h
      cases hr : exchangeAll b tgt rest with
      | none => rw [hr] at h; cases h
      | some vs2 =>
        rw [hr] at h
        injection h with h
        subst h
        cases i with
        | zero => simp [hx]
        | succ n => simpa using ih vs2 hr n

theorem exchangeAll_congr {α : Type} [Mul α] [Div α] (b1 b2 : Bank α) (tgt : Currency)
    (h : ∀ (a : α) (c : Currency), b1.exchange a c tgt = b2.exchange a c tgt) :
    ∀ l : List (Currency × α), exchangeAll b1 tgt l = exchangeAll b2 tgt l := by
  intro l
  induction l with
  | nil => rfl
  | cons f rest ih =>
    obtain ⟨c, a⟩ := f
    simp only [exchangeAll, h a c, ih]

/-! ## Claim theorems -/

/-- C2: `exchange` returns the amount unchanged when the currencies agree;
otherwise it divides by a rate stored under the ordered key (from, to);
otherwise it multiplies by a rate stored under (to, from); otherwise it
returns no value. -/
theorem claim_exchange_cases {α : Type} [Mul α] [Div α] (b : Bank α) (a : α)
    (frm tgt : Currency) :
    (frm = tgt → b.exchange a frm tgt = some a) ∧
    (frm ≠ tgt → ∀ r, b.rates (frm, tgt) = some r →
      b.exchange a frm tgt = some (a / r)) ∧
    (frm ≠ tgt → b.rates (frm, tgt) = none → ∀ r, b.rates (tgt, frm) = some r →
      b.exchange a frm tgt = some (a * r)) ∧
    (frm ≠ tgt → b.rates (frm, tgt) = none → b.rates (tgt, frm) = none →
      b.exchange a frm tgt = none) := by
  refine ⟨?_, ?_, ?_, ?_⟩
  · intro h; simp [Bank.exchange, h]
  · intro h r hr; simp [Bank.exchange, h, hr]
  · intro h h1 r hr; simp [Bank.exchange, h, h1, hr]
  · intro h h1 h2; simp [Bank.exchange, h, h1, h2]

/-- Witness for C2 on a concrete bank holding the single rate
(Franc, Doller) = 2, exercising all four cases. -/
theorem claim_exchange_cases_witness :
    ((Bank.new : Bank Int).add_rate Franc Doller 2).exchange 6 Doller Doller = some 6 ∧
    ((Bank.new : Bank Int).add_rate Franc Doller 2).exchange 6 Franc Doller = some (6 / 2) ∧
    ((Bank.new : Bank Int).add_rate Franc Doller 2).exchange 6 Doller Franc = some (6 * 2) ∧
    (Bank.new : Bank Int).exchange 6 Franc Doller = none :=
  ⟨(claim_exchange_cases _ 6 Doller Doller).1 rfl,
   (claim_exchange_cases _ 6 Franc Doller).2.1 (by decide) 2 (by decide),
   (claim_exchange_cases _ 6 Doller Franc).2.2.1 (by decide) (by decide) 2 (by decide),
   (claim_exchange_cases _ 6 Franc Doller).2.2.2 (by decide) (by decide) (by decide)⟩

/-- C1: when every entry of a Money is convertible to the target, `reduce`
succeeds: the exchanged amounts are the entries' amounts converted in
order, and the result is a single-entry Money in the target currency
holding their fold with `+` from zero; in particular
reduce(Money(C,x) + Money(C,y), C) = Money(C, x + y). -/
theorem claim_reduce_sums_exchanged_entries {α : Type} [AddMonoid α] [Mul α] [Div α]
    (b : Bank α) :
    (∀ (m : Money α) (tgt : Currency),
      (∀ e ∈ m.entries, (b.exchange e.2 e.1 tgt).isSome) →
      (exchangeAll b tgt m.entries).isSome) ∧
    (∀ (m : Money α) (tgt : Currency) (vs : List α),
      exchangeAll b tgt m.entries = some vs →
      (∀ i : Nat, vs[i]? = (m.entries[i]?).bind fun e => b.exchange e.2 e.1 tgt) ∧
      b.reduce m tgt = some ⟨[(tgt, vs.foldl (fun acc v => acc + v) 0)]⟩) ∧
    (∀ (C : Currency) (x y : α),
      b.reduce (Money.mk [(C, x)] + Money.mk [(C, y)]) C = some (Money.mk [(C, x + y)])) := by
  refine ⟨?_, ?_, ?_⟩
  · intro m tgt h
    exact exchangeAll_isSome b tgt m.entries h
  · intro m tgt vs h
    refine ⟨exchangeAll_getElem b tgt m.entries vs h, ?_⟩
    simp [Bank.reduce, h]
  · intro C x y
    simp [Bank.reduce, Money.add_entries, exchangeAll, Bank.exchange, zero_add]

/-- Witness for C1: an all-dollar sum reduced over the empty bank. -/
theorem claim_reduce_sums_exchanged_entries_witness :
    (exchangeAll (Bank.new : Bank Int) Doller (Money.doller 5).entries).isSome ∧
    (Bank.new : Bank Int).reduce (Money.doller 3 + Money.doller 4) Doller
      = some ⟨[(Doller, ([3, 4] : List Int).foldl (fun acc v => acc + v) 0)]⟩ ∧
    (Bank.new : Bank Int).reduce (Money.mk [(Franc, (3 : Int))] + Money.mk [(Franc, 4)]) Franc
      = some (Money.mk [(Franc, 3 + 4)]) :=
  ⟨(claim_reduce_sums_exchanged_entries Bank.new).1 (Money.doller 5) Doller (by decide),
   ((claim_reduce_sums_exchanged_entries Bank.new).2.1 (Money.doller 3 + Money.doller 4)
      Doller [3, 4] (by decide)).2,
   (claim_reduce_sums_exchanged_entries Bank.new).2.2 Franc 3 4⟩

/-- C3: `reduce` terminates abnormally (modelled as `none`) exactly when
some entry's currency has no conversion to the target, and `exchange`
returns no value exactly when the currencies differ and neither direction
of the pair is in the rate table. -/
theorem claim_reduce_panics_iff_missing_rate {α : Type} [Zero α] [Add α] [Mul α] [Div α]
    (b : Bank α) :
    (∀ (m : Money α) (tgt : Currency),
      b.reduce m tgt = none ↔ ∃ e ∈ m.entries, b.exchange e.2 e.1 tgt = none) ∧
    (∀ (a : α) (frm tgt : Currency),
      b.exchange a frm tgt = none ↔
        frm ≠ tgt ∧ b.rates (frm, tgt) = none ∧ b.rates (tgt, frm) = none) := by
  constructor
  · intro m tgt
    rw [← exchangeAll_eq_none_iff b tgt m.entries]
    unfold Bank.reduce
    cases h : exchangeAll b tgt m.entries <;> simp [h]
  · intro a frm tgt
    unfold Bank.exchange
    by_cases h : frm = tgt
    · simp [h]
    · cases h1 : b.rates (frm, tgt) <;> cases h2 : b.rates (tgt, frm) <;>
        simp [h, h1, h2]

/-- Witness for C3: reducing a franc over the empty bank to dollars has no
value, via the missing-rate characterisation at a concrete entry. -/
theorem claim_reduce_panics_iff_missing_rate_witness :
    (Bank.new : Bank Int).reduce (Money.franc 1) Doller = none :=
  ((claim_reduce_panics_iff_missing_rate Bank.new).1 (Money.franc 1) Doller).mpr
    ⟨(Franc, 1), by decide, by decide⟩

/-- C7: reducing a single-entry Money to its own currency reconstructs it
exactly, on any bank, with no stored rate consulted. -/
theorem claim_identity_reduce {α : Type} [AddZeroClass α] [Mul α] [Div α]
    (b : Bank α) (C : Currency) (a : α) :
    b.reduce ⟨[(C, a)]⟩ C = some ⟨[(C, a)]⟩ := by
  simp [Bank.reduce, exchangeAll, Bank.exchange, zero_add]

/-- Witness for C7 on a bank that does hold a rate. -/
theorem claim_identity_reduce_witness :
    ((Bank.new : Bank Int).add_rate Franc Doller 2).reduce ⟨[(Franc, 7)]⟩ Franc
      = some ⟨[(Franc, 7)]⟩ :=
  claim_identity_reduce _ Franc 7

/-- C9: `times` keeps the number of entries, keeps every position's
currency, multiplies every position's amount by the factor, and on a
single-entry Money gives Money(C, a * f). -/
theorem claim_times_scales_entries {α : Type} [Mul α] :
    (∀ (m : Money α) (f : α), (m.times f).entries.length = m.entries.length) ∧
    (∀ (m : Money α) (f : α) (i : Nat),
      (m.times f).entries[i]? = (m.entries[i]?).map fun e => (e.1, e.2 * f)) ∧
    (∀ (C : Currency) (a f : α), (Money.mk [(C, a)]).times f = Money.mk [(C, a * f)]) := by
  refine ⟨?_, ?_, ?_⟩
  · intro m f; simp [Money.times]
  · intro m f i; simp [Money.times]
  · intro C a f; simp [Money.times]

/-- Witness for C9 at Money(Doller, 5) times 2. -/
theorem claim_times_scales_entries_witness :
    ((Money.doller (5 : Int)).times 2).entries.length = (Money.doller (5 : Int)).entries.length ∧
    ((Money.doller (5 : Int)).times 2).entries[0]?
      = ((Money.doller (5 : Int)).entries[0]?).map (fun e => (e.1, e.2 * 2)) ∧
    (Money.mk [(Doller, (5 : Int))]).times 2 = Money.mk [(Doller, 5 * 2)] :=
  ⟨claim_times_scales_entries.1 (Money.doller 5) 2,
   claim_times_scales_entries.2.1 (Money.doller 5) 2 0,
   claim_times_scales_entries.2.2 Doller 5 2⟩

/-- C4: on a fresh bank with the single registration
add_rate(Franc, Doller, r), reducing x francs to dollars divides by r and
reducing y dollars to francs multiplies by r, in the amount type's own
arithmetic. -/
theorem claim_cross_currency_arithmetic {α : Type} [AddZeroClass α] [Mul α] [Div α]
    (r x y : α) :
    (Bank.new.add_rate Franc Doller r).reduce (Money.franc x) Doller
      = some (Money.doller (x / r)) ∧
    (Bank.new.add_rate Franc Doller r).reduce (Money.doller y) Franc
      = some (Money.franc (y * r)) := by
  constructor <;>
    simp [Bank.reduce, exchangeAll, Bank.exchange, Bank.add_rate, Bank.new,
      Money.franc, Money.doller, zero_add]

/-- Witness for C4 with rate 2 on integer amounts. -/
theorem claim_cross_currency_arithmetic_witness :
    (Bank.new.add_rate Franc Doller (2 : Int)).reduce (Money.franc 6) Doller
      = some (Money.doller (6 / 2)) ∧
    (Bank.new.add_rate Franc Doller (2 : Int)).reduce (Money.doller 5) Franc
      = some (Money.franc (5 * 2)) :=
  claim_cross_currency_arithmetic 2 6 5

/-- The one-direction invariant of the rate table: for distinct currencies
at most one ordered direction is stored. -/
def oneDirection {α : Type} (b : Bank α) : Prop :=
  ∀ c d : Currency, c ≠ d → b.rates (c, d) = none ∨ b.rates (d, c) = none

theorem oneDirection_add_rate {α : Type} (b : Bank α) (frm tgt : Currency) (r : α)
    (hb : oneDirection b) : oneDirection (b.add_rate frm tgt r) := by
  intro c d hcd
  unfold Bank.add_rate
  split_ifs with h
  · rw [Bool.and_eq_true, Option.isNone_iff_eq_none, Option.isNone_iff_eq_none] at h
    obtain ⟨h1, h2⟩ := h
    dsimp only
    by_cases hcd1 : ((c, d) : Currency × Currency) = (frm, tgt)
    · right
      rw [Prod.mk.injEq] at hcd1
      obtain ⟨rfl, rfl⟩ := hcd1
      rw [if_neg]
      · exact h2
      · intro hq
        rw [Prod.mk.injEq] at hq
        exact hcd hq.2
    · by_cases hcd2 : ((d, c) : Currency × Currency) = (frm, tgt)
      · left
        rw [if_neg hcd1]
        rw [Prod.mk.injEq] at hcd2
        obtain ⟨rfl, rfl⟩ := hcd2
        exact h2
      · rcases hb c d hcd with h3 | h3
        · left; rw [if_neg hcd1]; exact h3
        · right; rw [if_neg hcd2]; exact h3
  · exact hb c d hcd

theorem oneDirection_applyCalls {α : Type} :
    ∀ (calls : List (Currency × Currency × α)) (b : Bank α), oneDirection b →
      oneDirection (b.applyCalls calls) := by
  intro calls
  induction calls with
  | nil => intro b hb; exact hb
  | cons call rest ih =>
    intro b hb
    obtain ⟨frm, tgt, r⟩ := call
    exact ih _ (oneDirection_add_rate b frm tgt r hb)

/-- C5: every bank reachable from new() by add_rate calls stores at most
one direction for any unordered pair of distinct currencies, and a call
add_rate(from, to, r) on a pair already stored in either direction leaves
the rate table completely unchanged. -/
theorem claim_rate_table_one_direction {α : Type} :
    (∀ (calls : List (Currency × Currency × α)) (c d : Currency), c ≠ d →
      (Bank.applyCalls Bank.new calls).rates (c, d) = none ∨
      (Bank.applyCalls Bank.new calls).rates (d, c) = none) ∧
    (∀ (b : Bank α) (frm tgt : Currency) (r : α),
      ((b.rates (frm, tgt)).isSome ∨ (b.rates (tgt, frm)).isSome) →
      (b.add_rate frm tgt r).rates = b.rates) := by
  constructor
  · intro calls c d hcd
    exact oneDirection_applyCalls calls Bank.new (fun _ _ _ => Or.inl rfl) c d hcd
  · intro b frm tgt r h
    unfold Bank.add_rate
    have hcond : ¬(((b.rates (frm, tgt)).isNone && (b.rates (tgt, frm)).isNone) = true) := by
      intro hcon
      rw [Bool.and_eq_true, Option.isNone_iff_eq_none, Option.isNone_iff_eq_none] at hcon
      rcases h with h | h
      · rw [hcon.1] at h; simp at h
      · rw [hcon.2] at h; simp at h
    rw [if_neg hcond]

/-- Witness for C5: after registering (Franc, Doller, 2), the reverse
direction is unstored, and a second registration with a different value
and swapped direction leaves the whole table unchanged. -/
theorem claim_rate_table_one_direction_witness :
    ((Bank.applyCalls (Bank.new : Bank Int) [(Franc, Doller, 2)]).rates (Franc, Doller) = none ∨
      (Bank.applyCalls (Bank.new : Bank Int) [(Franc, Doller, 2)]).rates (Doller, Franc) = none) ∧
    (((Bank.new : Bank Int).add_rate Franc Doller 2).add_rate Doller Franc 3).rates
      = ((Bank.new : Bank Int).add_rate Franc Doller 2).rates :=
  ⟨claim_rate_table_one_direction.1 [(Franc, Doller, 2)] Franc Doller (by decide),
   claim_rate_table_one_direction.2 _ Doller Franc 3 (Or.inr (by decide))⟩

/-- C6 counterexample: the claim says no reachable rate table holds a
same-currency key, but add_rate(Doller, Doller, 2) on a fresh bank does
store the key (Doller, Doller): the insertion guard checks the same key
twice and finds it absent. -/
theorem claim_no_same_currency_key_counterexample :
    (Bank.applyCalls (Bank.new : Bank Int) [(Doller, Doller, 2)]).rates (Doller, Doller)
      = some 2 := by
  decide

theorem noDiag_add_rate {α : Type} (b : Bank α) (frm tgt : Currency) (r : α)
    (hft : frm ≠ tgt) (hb : ∀ C, b.rates (C, C) = none) :
    ∀ C, (b.add_rate frm tgt r).rates (C, C) = none := by
  intro C
  unfold Bank.add_rate
  split_ifs with h
  · dsimp only
    rw [if_neg]
    · exact hb C
    · intro hq
      rw [Prod.mk.injEq] at hq
      exact hft (hq.1.symm.trans hq.2)
  · exact hb C

theorem noDiag_applyCalls {α : Type} :
    ∀ (calls : List (Currency × Currency × α)) (b : Bank α),
      (∀ call ∈ calls, call.1 ≠ call.2.1) → (∀ C, b.rates (C, C) = none) →
      ∀ C, (b.applyCalls calls).rates (C, C) = none := by
  intro calls
  induction calls with
  | nil => intro b _ hb; exact hb
  | cons call rest ih =>
    intro b hcalls hb
    obtain ⟨frm, tgt, r⟩ := call
    refine ih _ (fun c hc => hcalls c (List.mem_cons_of_mem _ hc)) ?_
    exact noDiag_add_rate b frm tgt r (hcalls (frm, tgt, r) (List.mem_cons_self _ _)) hb

/-- C6 (amended): every bank reachable from new() by add_rate calls whose
two currency arguments differ holds no entry keyed by a same-currency
pair; a call with equal arguments can store such an entry (see the
counterexample), though it is never consulted. -/
theorem claim_no_same_currency_key_distinct_calls {α : Type}
    (calls : List (Currency × Currency × α))
    (hcalls : ∀ call ∈ calls, call.1 ≠ call.2.1) (C : Currency) :
    (Bank.applyCalls Bank.new calls).rates (C, C) = none :=
  noDiag_applyCalls calls Bank.new hcalls (fun _ => rfl) C

/-- Witness for the amended C6 at a single distinct-currency call. -/
theorem claim_no_same_currency_key_distinct_calls_witness :
    (Bank.applyCalls (Bank.new : Bank Int) [(Franc, Doller, 2)]).rates (Doller, Doller)
      = none :=
  claim_no_same_currency_key_distinct_calls [(Franc, Doller, 2)] (by decide) Doller

/-- C8: Money addition concatenates entry lists, left operand first, with
no conversion; and when every entry of both operands converts to the
target, the reduced sum does not depend on the operand order. -/
theorem claim_add_concat_and_reduce_comm {α : Type} [AddCommMonoid α] [Mul α] [Div α]
    (b : Bank α) :
    (∀ m1 m2 : Money α, (m1 + m2).entries = m1.entries ++ m2.entries) ∧
    (∀ (m1 m2 : Money α) (tgt : Currency),
      (∀ e ∈ m1.entries ++ m2.entries, (b.exchange e.2 e.1 tgt).isSome) →
      b.reduce (m1 + m2) tgt = b.reduce (m2 + m1) tgt) := by
  constructor
  · intro m1 m2; rfl
  · intro m1 m2 tgt h
    have h1 : ∀ e ∈ m1.entries, (b.exchange e.2 e.1 tgt).isSome := fun e he =>
      h e (List.mem_append_left _ he)
    have h2 : ∀ e ∈ m2.entries, (b.exchange e.2 e.1 tgt).isSome := fun e he =>
      h e (List.mem_append_right _ he)
    obtain ⟨v1, hv1⟩ := Option.isSome_iff_exists.mp (exchangeAll_isSome b tgt _ h1)
    obtain ⟨v2, hv2⟩ := Option.isSome_iff_exists.mp (exchangeAll_isSome b tgt _ h2)
    have hsum : (v1 ++ v2).foldl (fun acc v => acc + v) (0 : α)
        = (v2 ++ v1).foldl (fun acc v => acc + v) 0 := by
      rw [foldl_add_eq_add_sum, foldl_add_eq_add_sum, List.sum_append, List.sum_append,
        add_comm v1.sum v2.sum]
    unfold Bank.reduce
    rw [Money.add_entries, Money.add_entries,
      exchangeAll_append b tgt _ _ _ _ hv1 hv2, exchangeAll_append b tgt _ _ _ _ hv2 hv1]
    dsimp only
    rw [hsum]

/-- Witness for C8 mixing dollars and francs with the rate (Franc, Doller, 2). -/
theorem claim_add_concat_and_reduce_comm_witness :
    (Money.doller (5 : Int) + Money.franc 10).entries
      = (Money.doller (5 : Int)).entries ++ (Money.franc 10).entries ∧
    ((Bank.new : Bank Int).add_rate Franc Doller 2).reduce
        (Money.doller 5 + Money.franc 10) Doller
      = ((Bank.new : Bank Int).add_rate Franc Doller 2).reduce
        (Money.franc 10 + Money.doller 5) Doller :=
  ⟨(claim_add_concat_and_reduce_comm ((Bank.new : Bank Int).add_rate Franc Doller 2)).1
      (Money.doller 5) (Money.franc 10),
   (claim_add_concat_and_reduce_comm ((Bank.new : Bank Int).add_rate Franc Doller 2)).2
      (Money.doller 5) (Money.franc 10) Doller (by decide)⟩

theorem add_rate_same_exchange {α : Type} [Mul α] [Div α] (b : Bank α) (C : Currency)
    (r a : α) (frm tgt : Currency) :
    (b.add_rate C C r).exchange a frm tgt = b.exchange a frm tgt := by
  unfold Bank.add_rate
  split_ifs with h
  · unfold Bank.exchange
    by_cases hft : frm = tgt
    · simp [hft]
    · have hk1 : ((frm, tgt) : Currency × Currency) ≠ (C, C) := by
        intro hq
        rw [Prod.mk.injEq] at hq
        exact hft (hq.1.trans hq.2.symm)
      have hk2 : ((tgt, frm) : Currency × Currency) ≠ (C, C) := by
        intro hq
        rw [Prod.mk.injEq] at hq
        exact hft (hq.2.trans hq.1.symm)
      simp only [if_neg hft, if_neg hk1, if_neg hk2]
  · rfl

/-- C10: same-currency exchange is the identity on every bank, and a
stored same-currency rate (placed by add_rate(C, C, r)) never influences
any exchange or any reduce. -/
theorem claim_same_currency_rate_inert {α : Type} [Zero α] [Add α] [Mul α] [Div α] :
    (∀ (b : Bank α) (a : α) (C : Currency), b.exchange a C C = some a) ∧
    (∀ (b : Bank α) (C : Currency) (r a : α) (frm tgt : Currency),
      (b.add_rate C C r).exchange a frm tgt = b.exchange a frm tgt) ∧
    (∀ (b : Bank α) (C : Currency) (r : α) (m : Money α) (tgt : Currency),
      (b.add_rate C C r).reduce m tgt = b.reduce m tgt) := by
  refine ⟨?_, ?_, ?_⟩
  · intro b a C; simp [Bank.exchange]
  · intro b C r a frm tgt; exact add_rate_same_exchange b C r a frm tgt
  · intro b C r m tgt
    unfold Bank.reduce
    rw [exchangeAll_congr (b.add_rate C C r) b tgt
      (fun a c => add_rate_same_exchange b C r a c tgt) m.entries]

/-- Witness for C10 on a bank that did store a same-currency rate. -/
theorem claim_same_currency_rate_inert_witness :
    ((Bank.new : Bank Int).add_rate Franc Franc 5).exchange 9 Franc Franc = some 9 ∧
    ((Bank.new : Bank Int).add_rate Franc Franc 5).exchange 9 Doller Franc
      = (Bank.new : Bank Int).exchange 9 Doller Franc ∧
    ((Bank.new : Bank Int).add_rate Franc Franc 5).reduce (Money.franc 3) Franc
      = (Bank.new : Bank Int).reduce (Money.franc 3) Franc :=
  ⟨claim_same_currency_rate_inert.1 _ 9 Franc,
   claim_same_currency_rate_inert.2.1 Bank.new Franc 5 9 Doller Franc,
   claim_same_currency_rate_inert.2.2 Bank.new Franc 5 (Money.franc 3) Franc⟩
